import Mathlib

/-!
Verification development for the SentientEcho agent (Python repository
`Panchu11/sentientecho`).  Python strings are embedded as `List Char`
(one element per Unicode code point, matching Python `len`/indexing on
the ASCII inputs considered here), Python `float` values (timestamps,
scores) as `ℚ`, and fallible network calls as `Option`-valued oracles.
Each definition is a direct translation of the function of the same
name in the source tree.
-/

namespace SentientEcho

/-! ### Character classes

Python `re` classes restricted to ASCII (all inputs considered are
ASCII): `\s` is `[ \t\n\r\f\v]`, `\w` is `[a-zA-Z0-9_]`. -/

/-- Membership in Python's regex class `\s` (ASCII): space, tab,
newline, carriage return, form feed, vertical tab.  Also the set used
by `str.split()`/`str.strip()` on ASCII text. -/
def isSpaceCh (c : Char) : Bool :=
  c = ' ' || c = '\t' || c = '\n' || c = '\r' || c = Char.ofNat 11 || c = Char.ofNat 12

/-- Membership in Python's regex class `\w` (ASCII). -/
def isWordCh (c : Char) : Bool :=
  c.isAlphanum || c = '_'

/-! ### `InputValidator.validate_query` (src/utils/security.py)

Each `DANGEROUS_PATTERNS` / `SQL_INJECTION_PATTERNS` regex is embedded
as a decidable "a match starts at this position" predicate; `re.search`
is existence of a match at some suffix.  Laziness/greediness of
quantifiers is irrelevant for match existence, so the predicates are
written as straightforward backtracking scans. -/

/-- Search: does `m` hold on some suffix of the text (including the
full text and the empty suffix)?  This is `re.search` for a
position-anchored matcher `m`. -/
def searchSuffixes (m : List Char → Bool) : List Char → Bool
  | [] => m []
  | c :: rest => m (c :: rest) || searchSuffixes m rest

/-- Matcher for `.*?w` where `.` excludes newline (Python default):
scan forward over non-newline characters looking for the literal `w`. -/
def dotScanLit (w : List Char) : List Char → Bool
  | [] => w.isPrefixOf ([] : List Char)
  | c :: rest => w.isPrefixOf (c :: rest) || (c ≠ '\n' && dotScanLit w rest)

/-- Matcher for `[^>]*>` followed by `.*?</script>`: skip to the first
`>` then scan for the closing tag. -/
def afterScriptOpen : List Char → Bool
  | [] => false
  | '>' :: rest => dotScanLit "</script>".toList rest
  | _ :: rest => afterScriptOpen rest

/-- Position-anchored matcher for `<script[^>]*>.*?</script>`. -/
def matchScriptHere (l : List Char) : Bool :=
  "<script".toList.isPrefixOf l && afterScriptOpen (l.drop 7)

/-- Matcher for `\s*=` (tail of the event-handler pattern). -/
def spEq : List Char → Bool
  | [] => false
  | '=' :: _ => true
  | c :: rest => isSpaceCh c && spEq rest

/-- Matcher for the tail of `on\w+\s*=` after the first word character:
either more word characters, or spaces and then `=`. -/
def wdEq : List Char → Bool
  | [] => false
  | '=' :: _ => true
  | c :: rest => (isWordCh c && wdEq rest) || (isSpaceCh c && spEq rest)

/-- Position-anchored matcher for `on\w+\s*=`. -/
def matchOnHere : List Char → Bool
  | 'o' :: 'n' :: c :: rest => isWordCh c && wdEq rest
  | _ => false

/-- Matcher for `\s*\(` (tail of the `eval`/`exec` patterns). -/
def spParen : List Char → Bool
  | [] => false
  | '(' :: _ => true
  | c :: rest => isSpaceCh c && spParen rest

/-- Position-anchored matcher for `eval\s*\(`. -/
def matchEvalHere (l : List Char) : Bool :=
  "eval".toList.isPrefixOf l && spParen (l.drop 4)

/-- Position-anchored matcher for `exec\s*\(`. -/
def matchExecHere (l : List Char) : Bool :=
  "exec".toList.isPrefixOf l && spParen (l.drop 4)

/-- Position-anchored matcher for `import\s+` (a match exists iff
`import` is followed by at least one whitespace character). -/
def matchImportHere (l : List Char) : Bool :=
  "import".toList.isPrefixOf l &&
    (match l.drop 6 with
     | c :: _ => isSpaceCh c
     | [] => false)

/-- Matcher for `\w+__` after the opening `__` of the dunder pattern:
consume word characters (at least one), then require a literal `__`. -/
def dunderTail : List Char → Bool
  | [] => false
  | c :: rest => isWordCh c && ("__".toList.isPrefixOf rest || dunderTail rest)

/-- Position-anchored matcher for `__\w+__`. -/
def matchDunderHere (l : List Char) : Bool :=
  "__".toList.isPrefixOf l && dunderTail (l.drop 2)

/-- Matcher for `\s*w` for a literal `w`: either `w` starts here or
consume one whitespace and continue. -/
def spLit (w : List Char) : List Char → Bool
  | [] => w.isPrefixOf ([] : List Char)
  | c :: rest => w.isPrefixOf (c :: rest) || (isSpaceCh c && spLit w rest)

/-- Position-anchored matcher for `w1\s+w2` (the shape of the SQL
keyword patterns such as `drop\s+table`). -/
def matchKwPairHere (w1 w2 : List Char) (l : List Char) : Bool :=
  w1.isPrefixOf l &&
    (match l.drop w1.length with
     | c :: rest => isSpaceCh c && spLit w2 rest
     | [] => false)

/-- Position-anchored matcher for `--\s*$` (no MULTILINE): after the
`--` every remaining character must be whitespace, so that `\s*` can
reach the end of the string or the position before a final newline. -/
def matchSqlCommentHere (l : List Char) : Bool :=
  "--".toList.isPrefixOf l && (l.drop 2).all isSpaceCh

/-- Position-anchored matcher for `/\*.*?\*/`. -/
def matchBlockCommentHere (l : List Char) : Bool :=
  "/*".toList.isPrefixOf l && dotScanLit "*/".toList (l.drop 2)

/-- Embeds the `DANGEROUS_PATTERNS` loop of
`InputValidator.validate_query`: some pattern matches somewhere in the
(already lowercased) query. -/
def containsDangerous (l : List Char) : Bool :=
  searchSuffixes matchScriptHere l ||
  searchSuffixes ("javascript:".toList.isPrefixOf ·) l ||
  searchSuffixes matchOnHere l ||
  searchSuffixes matchEvalHere l ||
  searchSuffixes matchExecHere l ||
  searchSuffixes matchImportHere l ||
  searchSuffixes matchDunderHere l ||
  searchSuffixes ("../".toList.isPrefixOf ·) l ||
  l.any (fun c => c = ';' || c = '&' || c = '|' || c = Char.ofNat 96 || c = '$')

/-- Embeds the `SQL_INJECTION_PATTERNS` loop of
`InputValidator.validate_query`. -/
def containsSqlInjection (l : List Char) : Bool :=
  searchSuffixes (matchKwPairHere "union".toList "select".toList) l ||
  searchSuffixes (matchKwPairHere "drop".toList "table".toList) l ||
  searchSuffixes (matchKwPairHere "delete".toList "from".toList) l ||
  searchSuffixes (matchKwPairHere "insert".toList "into".toList) l ||
  searchSuffixes (matchKwPairHere "update".toList "set".toList) l ||
  searchSuffixes matchSqlCommentHere l ||
  searchSuffixes matchBlockCommentHere l

/-- Python `str.strip()` on ASCII text. -/
def pyStrip (l : List Char) : List Char :=
  ((l.dropWhile isSpaceCh).reverse.dropWhile isSpaceCh).reverse

/-- Count of characters that are neither alphanumeric nor whitespace
(the "special characters" of `validate_query`). -/
def specialCharCount (l : List Char) : ℕ :=
  (l.filter (fun c => !c.isAlphanum && !isSpaceCh c)).length

/-- Embeds `InputValidator.validate_query` (src/utils/security.py,
lines 51-91).  The query is a character list; the float threshold
`len(query) * 0.3` is modelled exactly as the rational `3/10 * len`
(the comparison `10 * count > 3 * len` below); all claims are
evaluated away from the float-rounding boundary.  Returns the Python
`(is_valid, error_message)` tuple. -/
def validate_query (q : List Char) : Bool × List Char :=
  if q.length = 0 then (false, "Query must be a non-empty string".toList)
  else if q.length > 1000 then (false, "Query too long (max 1000 characters)".toList)
  else if (pyStrip q).length < 3 then (false, "Query too short (min 3 characters)".toList)
  else
    let ql := q.map Char.toLower
    if containsDangerous ql then
      (false, "Query contains potentially dangerous content".toList)
    else if containsSqlInjection ql then
      (false, "Query contains potentially malicious SQL".toList)
    else if 10 * specialCharCount q > 3 * q.length then
      (false, "Query contains too many special characters".toList)
    else (true, [])

/-! ### `QueryProcessor._build_filters` subreddit cleanup
(src/processors/query_processor.py, lines 110-118) -/

/-- Embeds Python `s.replace("r/", "")`: remove every (left-to-right,
non-overlapping) occurrence of the two-character substring `r/`. -/
def removeRSlash : List Char → List Char
  | 'r' :: '/' :: rest => removeRSlash rest
  | c :: rest => c :: removeRSlash rest
  | [] => []

/-- Embeds Python `s.replace("/", "")`: remove every `/` character. -/
def removeSlash (l : List Char) : List Char :=
  l.filter (fun c => c ≠ '/')

/-- The cleanup `subreddit.replace("r/", "").replace("/", "")` from
`QueryProcessor._build_filters`. -/
def clean_subreddit (l : List Char) : List Char :=
  removeSlash (removeRSlash l)

/-- Embeds the subreddit branch of `QueryProcessor._build_filters`:
a falsy (absent or empty) name sets no filter, otherwise the cleaned
name is stored unless cleaning left it empty. -/
def build_filters_subreddit : Option (List Char) → Option (List Char)
  | none => none
  | some s =>
    if s.isEmpty then none
    else
      let c := clean_subreddit s
      if c.isEmpty then none else some c

/-- Modelled from the spec wording of claim C6 ("exactly that name with
a leading `r/` or leading `/` stripped, the rest of the name
unchanged"), for comparison against `build_filters_subreddit`. -/
def spec_strip_leading_subreddit (s : List Char) : List Char :=
  match s with
  | 'r' :: '/' :: rest => rest
  | '/' :: rest => rest
  | l => l

/-! ### `AIProvider.rank_posts_relevance`
(src/providers/ai_provider.py, lines 196-250)

The Fireworks chat call and the `float(...)` parsing of its reply are
fallible; their combined outcome is an oracle argument
`parsed : Option (List ℚ)` (`none` when the call or any float parse
raised, `some scores` for a successfully parsed comma-separated
list). -/

/-- Embeds `AIProvider.rank_posts_relevance`.  Nothing but the length
of `posts` is consumed, so the post dictionaries stay abstract. -/
def rank_posts_relevance {α : Type} (posts : List α) (parsed : Option (List ℚ)) : List ℚ :=
  if posts.isEmpty then []
  else
    match parsed with
    | none => List.replicate posts.length (1/2 : ℚ)
    | some scores =>
      if scores.length ≠ posts.length then List.replicate posts.length (1/2 : ℚ)
      else scores

/-! ### The `Post` data model (src/models/post.py)

`created_at` (a `datetime`) and `engagement_score` (a float) are
embedded as rationals — `created_at` as seconds on an absolute time
axis, so that Python's `(now - created_at).total_seconds()` is plain
subtraction.  The open `metadata` bag is not consumed by any claim and
is omitted. -/

structure Post where
  id : List Char
  source : List Char
  content : List Char
  author : List Char
  created_at : ℚ
  url : List Char
  engagement_score : ℚ
  summary : Option (List Char) := none
  sentiment : Option (List Char) := none
  relevance_score : Option ℚ := none
deriving DecidableEq, Repr

/-! ### `PostProcessor._normalize_content` and `_remove_duplicates`
(src/processors/post_processor.py, lines 85-132) -/

/-- Character class of one repetition of the URL regex
`(?:[a-zA-Z]|[0-9]|[$-_@.&+]|[!*\\(\\),]|(?:%[0-9a-fA-F][0-9a-fA-F]))+`:
`[$-_@.&+]` is the byte range `$`(0x24)...`_`(0x5F) plus `@.&+` (all
already inside the range), and `[!*\\(\\),]` is the set `! * \ ( ) ,`.
The `%XX` alternative is subsumed because `%` (0x25) lies in the range
and the class alternatives are tried left to right. -/
def isUrlCh (c : Char) : Bool :=
  c.isAlpha || c.isDigit || (0x24 ≤ c.toNat && c.toNat ≤ 0x5F) ||
  c = '@' || c = '.' || c = '&' || c = '+' ||
  c = '!' || c = '*' || c = '\\' || c = '(' || c = ')' || c = ','

/-- The scheme part `http[s]?://` of the URL regex: on success returns
the text after the scheme.  The optional `s` backtracks as in the
regex engine (taking the `s` is tried first). -/
def urlScheme : List Char → Option (List Char)
  | 'h' :: 't' :: 't' :: 'p' :: 's' :: ':' :: '/' :: '/' :: r => some r
  | 'h' :: 't' :: 't' :: 'p' :: ':' :: '/' :: '/' :: r => some r
  | _ => none

/-- Position-anchored matcher for the URL regex
`http[s]?://(...)+`: on success returns the text remaining after the
(greedy, maximal) match. -/
def matchUrlHere (l : List Char) : Option (List Char) :=
  match urlScheme l with
  | some (c :: r) => if isUrlCh c then some (r.dropWhile isUrlCh) else none
  | _ => none

/-- Embeds `re.sub(URL_REGEX, '', content)`: scan left to right,
dropping each leftmost URL match, copying other characters. -/
def stripURLs (l : List Char) : List Char :=
  match h : matchUrlHere l with
  | some l' => stripURLs l'
  | none =>
    match l with
    | [] => []
    | c :: rest => c :: stripURLs rest
termination_by l.length
decreasing_by
  · unfold matchUrlHere at h
    split at h
    case _ c r heq =>
      split at h
      · cases h
        have h1 : r.length + 8 ≤ l.length := by
          unfold urlScheme at heq
          split at heq <;> simp_all <;> omega
        have h2 : (r.dropWhile isUrlCh).length ≤ r.length :=
          (List.dropWhile_suffix isUrlCh).sublist.length_le
        omega
      · cases h
    · cases h
  · simp

/-- Position-anchored matcher for `[@#]\w+`: on success returns the
text remaining after the (greedy, maximal) match. -/
def matchTagHere : List Char → Option (List Char)
  | c :: d :: rest =>
    if (c = '@' || c = '#') && isWordCh d then some (rest.dropWhile isWordCh)
    else none
  | _ => none

/-- Embeds `re.sub(r'[@#]\w+', '', content)`: an `@` or `#` followed by
at least one word character is dropped together with the maximal word
run after it; everything else is copied. -/
def stripMentions (l : List Char) : List Char :=
  match h : matchTagHere l with
  | some l' => stripMentions l'
  | none =>
    match l with
    | [] => []
    | c :: rest => c :: stripMentions rest
termination_by l.length
decreasing_by
  · unfold matchTagHere at h
    split at h
    next c d rest =>
      split at h
      · cases h
        have := (List.dropWhile_suffix isWordCh (l := rest)).sublist.length_le
        simp only [List.length_cons]
        omega
      · cases h
    next => cases h
  · simp

/-- Python `content.split()` on ASCII text: whitespace-run separated
words, no empties. -/
def pyWords (l : List Char) : List (List Char) :=
  (l.splitOnP isSpaceCh).filter (· ≠ [])

/-- Python `' '.join(content.split())`. -/
def collapseWs (l : List Char) : List Char :=
  List.intercalate [' '] (pyWords l)

/-- Embeds `PostProcessor._normalize_content`: strip URLs, strip
mentions/hashtags, collapse whitespace and lowercase, keep the first
100 characters. -/
def normalize_content (content : List Char) : List Char :=
  let noUrl := stripURLs content
  let noTags := stripMentions noUrl
  let collapsed := (collapseWs noTags).map Char.toLower
  collapsed.take 100

/-- Worker of `PostProcessor._remove_duplicates` with the `seen_content`
set made explicit. -/
def dedupGo (seen : List (List Char)) : List Post → List Post
  | [] => []
  | p :: ps =>
    if normalize_content p.content ∈ seen then dedupGo seen ps
    else p :: dedupGo (normalize_content p.content :: seen) ps

/-- Embeds `PostProcessor._remove_duplicates`. -/
def remove_duplicates (posts : List Post) : List Post :=
  dedupGo [] posts

/-! ### `PostProcessor._filter_quality`
(src/processors/post_processor.py, lines 134-162) -/

/-- Does a word start with `http`, `@` or `#` (the words excluded from
the `content_words` count)? -/
def startsWithBad (w : List Char) : Bool :=
  "http".toList.isPrefixOf w || "@".toList.isPrefixOf w || "#".toList.isPrefixOf w

/-- The `content_words` count of `_filter_quality`. -/
def contentWords (l : List Char) : ℕ :=
  ((pyWords l).filter (fun w => !startsWithBad w)).length

/-- Embeds `PostProcessor._filter_quality`: a post is kept iff none of
the three skip conditions fires. -/
def filter_quality (posts : List Post) : List Post :=
  posts.filter fun p =>
    !decide ((pyStrip p.content).length < 20) &&
    !decide (p.engagement_score < 0) &&
    !decide (contentWords p.content < 5)

/-! ### AI enrichment (src/processors/post_processor.py, lines 164-243)

`_enhance_single_post` fans out two model calls; their delivered
outcomes are oracle arguments.  `summarize` yields `none` when the
gathered summary task delivered an exception (the post keeps
`summary = None`); `sentiment` likewise, in which case the string
`"neutral"` is substituted, exactly as in the source. -/

/-- Embeds `PostProcessor._enhance_single_post` for given oracle
outcomes of `summarize_post(content, query)` and
`analyze_sentiment(content)`. -/
def enhance_single_post (summarize : List Char → List Char → Option (List Char))
    (sentiment : List Char → Option (List Char)) (query : List Char) (p : Post) : Post :=
  { p with
    summary := summarize p.content query,
    sentiment := some ((sentiment p.content).getD "neutral".toList) }

/-- Embeds `PostProcessor._enhance_posts_parallel`: every post is
enhanced (the bounded-concurrency gather preserves order and length). -/
def enhance_posts_parallel (summarize : List Char → List Char → Option (List Char))
    (sentiment : List Char → Option (List Char)) (query : List Char)
    (posts : List Post) : List Post :=
  posts.map (enhance_single_post summarize sentiment query)

/-! ### `PostProcessor._rank_posts`
(src/processors/post_processor.py, lines 245-295) -/

/-- Python `max(p.engagement_score for p in posts) if posts else 1`. -/
def max_engagement : List Post → ℚ
  | [] => 1
  | p :: ps => ps.foldl (fun m q => max m q.engagement_score) p.engagement_score

/-- Embeds the inner `calculate_score` of `_rank_posts`; float weights
are the exact rationals they denote.  `now` is the value of
`datetime.now()`. -/
def calculate_score (posts : List Post) (now : ℚ) (p : Post) : ℚ :=
  let maxE := max_engagement posts
  let engagement_factor := if maxE > 0 then p.engagement_score / maxE else 0
  let age_hours := (now - p.created_at) / 3600
  let recency_factor := max 0 (1 - age_hours / (24 * 7))
  let length_factor := min 1 ((p.content.length : ℚ) / 500)
  engagement_factor * (4/10) + recency_factor * (2/10) + length_factor * (2/10) +
    (if p.sentiment = some "positive".toList then (1/10 : ℚ)
     else if p.sentiment = some "neutral".toList then (5/100 : ℚ) else 0) +
    (if p.source = "Reddit".toList then (5/100 : ℚ) else 0)

/-- The score-assignment loop of `_rank_posts` (mutating
`relevance_score` only, so the engagement maximum is unaffected). -/
def score_posts (now : ℚ) (posts : List Post) : List Post :=
  posts.map fun p => { p with relevance_score := some (calculate_score posts now p) }

/-- Python sort key `lambda p: p.relevance_score or 0` (both `None` and
`0.0` are falsy and map to `0`). -/
def rel_key (p : Post) : ℚ :=
  p.relevance_score.getD 0

/-- Stable descending insertion: `p` goes after every earlier post with
a strictly larger key and before the first with key `≤` its own, so
equal keys keep their prior relative order. -/
def insertDesc (p : Post) : List Post → List Post
  | [] => [p]
  | q :: qs => if rel_key q > rel_key p then q :: insertDesc p qs else p :: q :: qs

/-- Embeds Python `sorted(posts, key=lambda p: p.relevance_score or 0,
reverse=True)`: the unique stable descending reordering. -/
def sortByScoreDesc : List Post → List Post
  | [] => []
  | p :: ps => insertDesc p (sortByScoreDesc ps)

/-- Embeds `PostProcessor._rank_posts`. -/
def rank_posts (now : ℚ) (posts : List Post) : List Post :=
  sortByScoreDesc (score_posts now posts)

/-! ### `PostProcessor.process_posts`
(src/processors/post_processor.py, lines 33-83)

The pure stages cannot raise in the embedding, so each carries a fault
flag modelling "this stage, if reached, raises an unexpected
exception"; the `except` handler then returns `posts[:max_posts]`.
`max_posts` is the non-negative count every caller passes, so slicing
is `List.take`. -/

structure StageFaults where
  dedup : Bool := false
  filter : Bool := false
  enhance : Bool := false
  rank : Bool := false
deriving DecidableEq, Repr

/-- Some stage of the pipeline has a fault flag set. -/
def StageFaults.anyFault (f : StageFaults) : Bool :=
  f.dedup || f.filter || f.enhance || f.rank

/-- Embeds `PostProcessor.process_posts`. -/
def process_posts (f : StageFaults)
    (summarize : List Char → List Char → Option (List Char))
    (sentiment : List Char → Option (List Char))
    (posts : List Post) (query : List Char) (max_posts : ℕ) (now : ℚ) : List Post :=
  if posts.isEmpty then []
  else if f.dedup then posts.take max_posts
  else
    let unique := remove_duplicates posts
    if f.filter then posts.take max_posts
    else
      let filtered := filter_quality unique
      if filtered.isEmpty then []
      else if f.enhance then posts.take max_posts
      else
        let enhanced := enhance_posts_parallel summarize sentiment query filtered
        if f.rank then posts.take max_posts
        else (rank_posts now enhanced).take max_posts

/-- A faulty stage is actually reached and raises: the quality filter's
empty result short-circuits the pipeline before enrichment and
ranking, and an empty input never enters the `try` block at all. -/
def stage_raised (f : StageFaults) (posts : List Post) : Bool :=
  !posts.isEmpty &&
    (f.dedup || f.filter ||
      (!(filter_quality (remove_duplicates posts)).isEmpty && (f.enhance || f.rank)))

/-! ### `CircuitBreaker` (src/utils/security.py, lines 152-217)

`time.time()` values are rationals; the wrapped function's outcome at
a call is a boolean oracle (`true` = it would return normally,
`false` = it would raise). -/

inductive CBState where
  | closed
  | opened
  | halfOpen
deriving DecidableEq, Repr

structure CircuitBreaker where
  failure_threshold : ℕ
  recovery_timeout : ℚ
  failure_count : ℕ := 0
  last_failure_time : Option ℚ := none
  state : CBState := .closed
deriving DecidableEq, Repr

/-- Embeds `CircuitBreaker._should_attempt_reset`. -/
def CircuitBreaker.should_attempt_reset (cb : CircuitBreaker) (now : ℚ) : Bool :=
  match cb.last_failure_time with
  | none => true
  | some t => decide (now - t ≥ cb.recovery_timeout)

/-- Embeds `CircuitBreaker._on_success`. -/
def CircuitBreaker.on_success (cb : CircuitBreaker) : CircuitBreaker :=
  { cb with failure_count := 0, state := .closed }

/-- Embeds `CircuitBreaker._on_failure` at time `now`. -/
def CircuitBreaker.on_failure (cb : CircuitBreaker) (now : ℚ) : CircuitBreaker :=
  let cb' := { cb with failure_count := cb.failure_count + 1, last_failure_time := some now }
  if cb'.failure_count ≥ cb'.failure_threshold then { cb' with state := .opened } else cb'

/-- Outcome of one `CircuitBreaker.call`: rejected without executing
the wrapped function, executed and returned, or executed and raised. -/
inductive CallOutcome where
  | rejected
  | succeeded
  | failed
deriving DecidableEq, Repr

/-- Embeds `CircuitBreaker.call` at time `now`, where `ok` is whether
the wrapped function would succeed if executed. -/
def CircuitBreaker.call (cb : CircuitBreaker) (now : ℚ) (ok : Bool) :
    CallOutcome × CircuitBreaker :=
  if cb.state = .opened ∧ ¬ cb.should_attempt_reset now then (.rejected, cb)
  else
    let cb1 := if cb.state = .opened then { cb with state := .halfOpen } else cb
    if ok then (.succeeded, cb1.on_success) else (.failed, cb1.on_failure now)

/-- Fold a sequence of failing calls (the wrapped function raising each
time) through the breaker, recording only the final state. -/
def CircuitBreaker.failCalls (cb : CircuitBreaker) : List ℚ → CircuitBreaker
  | [] => cb
  | t :: ts => ((cb.call t false).2).failCalls ts

/-! ### `RateLimiter.is_allowed` (src/server.py, lines 44-86)

One `(client_id, endpoint)` key's deque, with that endpoint's
`(max_requests, window_seconds)` configuration; `is_allowed` for a
fixed key touches no other key's state. -/

structure RateLimiter where
  max_requests : ℕ
  window_seconds : ℚ
  requests : List ℚ := []
deriving DecidableEq, Repr

/-- Embeds `RateLimiter.is_allowed` at time `now`: pop timestamps older
than the window from the front, then admit iff under the limit,
recording the new timestamp at the back. -/
def RateLimiter.is_allowed (rl : RateLimiter) (now : ℚ) : Bool × RateLimiter :=
  let pruned := rl.requests.dropWhile (fun t => decide (t < now - rl.window_seconds))
  if pruned.length < rl.max_requests then
    (true, { rl with requests := pruned ++ [now] })
  else
    (false, { rl with requests := pruned })

/-- Fold a sequence of calls at the given times, recording each
admission decision. -/
def RateLimiter.runCalls (rl : RateLimiter) : List ℚ → List Bool
  | [] => []
  | t :: ts =>
    let (b, rl') := rl.is_allowed t
    b :: rl'.runCalls ts

/-! ### `LRUCache` and `QueryCache` (src/utils/cache.py)

The `OrderedDict` plus its parallel `timestamps` dict are one
association list ordered least- to most-recently used; a key appears at
most once in any state produced by the operations, so Python's
`del dict[key]` is `List.filter` on the key.  Values are an arbitrary
type `α` (entries hold Python `Any`). -/

structure LRUCache (α : Type) where
  max_size : ℕ
  ttl_seconds : ℚ
  entries : List (List Char × α × ℚ) := []

/-- Entries for `key` removed (Python `del self.cache[key]` /
`del self.timestamps[key]` on the unique entry). -/
def eraseEntry {α : Type} (entries : List (List Char × α × ℚ)) (key : List Char) :
    List (List Char × α × ℚ) :=
  entries.filter (fun e => e.1 ≠ key)

/-- Association-list lookup of a key's value and timestamp. -/
def lookupEntry {α : Type} (entries : List (List Char × α × ℚ)) (key : List Char) :
    Option (α × ℚ) :=
  (entries.find? (fun e => e.1 = key)).map (·.2)

/-- Embeds `LRUCache._is_expired` at time `now`. -/
def LRUCache.is_expired {α : Type} (c : LRUCache α) (now : ℚ) (key : List Char) : Bool :=
  match lookupEntry c.entries key with
  | none => true
  | some (_, ts) => decide (now - ts > c.ttl_seconds)

/-- Embeds `LRUCache.get` at time `now`: a hit moves the entry to the
most-recently-used (back) position; an expired entry is deleted and
reported absent. -/
def LRUCache.get {α : Type} (c : LRUCache α) (now : ℚ) (key : List Char) :
    Option α × LRUCache α :=
  match lookupEntry c.entries key with
  | none => (none, c)
  | some (v, ts) =>
    if now - ts > c.ttl_seconds then
      (none, { c with entries := eraseEntry c.entries key })
    else
      (some v, { c with entries := eraseEntry c.entries key ++ [(key, v, ts)] })

/-- The capacity loop `while len(self.cache) > self.max_size: del
oldest` deletes from the least-recently-used (front) end, which is
dropping the first `len - max_size` entries. -/
def evictOldest {α : Type} (max_size : ℕ) (entries : List (List Char × α × ℚ)) :
    List (List Char × α × ℚ) :=
  entries.drop (entries.length - max_size)

/-- Embeds `LRUCache.set` at time `now`: any existing entry for the key
is removed, the new value is appended at the most-recently-used end
with a fresh timestamp, then the cache is trimmed to capacity. -/
def LRUCache.set {α : Type} (c : LRUCache α) (now : ℚ) (key : List Char) (v : α) :
    LRUCache α :=
  { c with entries := evictOldest c.max_size (eraseEntry c.entries key ++ [(key, v, now)]) }

/-- Embeds `QueryCache._normalize_query`: lowercase and strip, collapse
whitespace, then drop every `?`, `!` and `.` character. -/
def normalize_query (q : List Char) : List Char :=
  let lowered := q.map Char.toLower
  let stripped := pyStrip lowered
  let collapsed := collapseWs stripped
  collapsed.filter (fun c => c ≠ '?' && c ≠ '!' && c ≠ '.')

/-- The cache key `f"query:{normalized_query}"` of `QueryCache`. -/
def query_key (q : List Char) : List Char :=
  "query:".toList ++ normalize_query q

/-- Embeds `QueryCache.cache_result` at time `now` (hit/miss counters
do not influence cached values and are omitted). -/
def QueryCache.cache_result {α : Type} (c : LRUCache α) (now : ℚ) (q : List Char) (v : α) :
    LRUCache α :=
  c.set now (query_key q) v

/-- Embeds `QueryCache.get_cached_result` at time `now`. -/
def QueryCache.get_cached_result {α : Type} (c : LRUCache α) (now : ℚ) (q : List Char) :
    Option α × LRUCache α :=
  c.get now (query_key q)

/-! ## Theorems -/

/-! ### Shared helper lemmas -/

theorem searchSuffixes_of_suffix {m : List Char → Bool} {r l : List Char}
    (hr : r <:+ l) (hm : m r = true) : searchSuffixes m l = true := by
  induction l with
  | nil =>
    have : r = [] := List.suffix_nil.mp hr
    subst this
    simpa [searchSuffixes] using hm
  | cons c rest ih =>
    rcases List.suffix_cons_iff.mp hr with h | h
    · subst h
      simp [searchSuffixes, hm]
    · simp [searchSuffixes, ih h]

theorem matchKwPairHere_append (w1 w2 b : List Char) :
    matchKwPairHere w1 w2 (w1 ++ ' ' :: (w2 ++ b)) = true := by
  unfold matchKwPairHere
  have h1 : w1.isPrefixOf (w1 ++ ' ' :: (w2 ++ b)) = true :=
    List.isPrefixOf_iff_prefix.mpr (List.prefix_append _ _)
  have h2 : (w1 ++ ' ' :: (w2 ++ b)).drop w1.length = ' ' :: (w2 ++ b) :=
    List.drop_left w1 _
  rw [h1, h2]
  simp only [Bool.true_and]
  have hsp : isSpaceCh ' ' = true := rfl
  rw [hsp]
  simp only [Bool.true_and]
  cases hw : w2 ++ b with
  | nil =>
    obtain ⟨hw2, _⟩ := List.append_eq_nil.mp hw
    subst hw2
    simp [spLit, List.isPrefixOf]
  | cons d ds =>
    have : w2.isPrefixOf (d :: ds) = true := by
      rw [← hw]
      exact List.isPrefixOf_iff_prefix.mpr (List.prefix_append _ _)
    simp [spLit, this]

/-! ### Claim C3 -/

/-- C3: for every post list and parse outcome,
`AIProvider.rank_posts_relevance` returns one score per post; and
whenever the call or parsing failed, or the parsed score count differs
from the post count, every returned score is the uniform default
`0.5`. -/
theorem C3_rank_posts_relevance_shape {α : Type} (posts : List α) (parsed : Option (List ℚ)) :
    (rank_posts_relevance posts parsed).length = posts.length ∧
    ((parsed = none ∨ ∃ s, parsed = some s ∧ s.length ≠ posts.length) →
      rank_posts_relevance posts parsed = List.replicate posts.length (1/2 : ℚ)) := by
  constructor
  · unfold rank_posts_relevance
    split
    · simp_all [List.isEmpty_iff]
    · rcases parsed with _ | s
      · simp
      · dsimp only
        split
        · simp
        · simp_all
  · rintro (h | ⟨s, hs, hne⟩) <;> subst_vars <;> unfold rank_posts_relevance
    · split
      · simp_all [List.isEmpty_iff]
      · rfl
    · split
      · simp_all [List.isEmpty_iff]
      · simp [hne]

/-- Witness for C3 at two posts and a single parsed score. -/
theorem C3_witness :
    (some [(9:ℚ)/10] = none ∨
      ∃ s, some [(9:ℚ)/10] = some s ∧ s.length ≠ ([0, 1] : List ℕ).length) ∧
    rank_posts_relevance ([0, 1] : List ℕ) (some [(9:ℚ)/10]) =
      List.replicate 2 (1/2 : ℚ) :=
  ⟨Or.inr ⟨[(9:ℚ)/10], rfl, by decide⟩,
   (C3_rank_posts_relevance_shape [0, 1] (some [(9:ℚ)/10])).2
     (Or.inr ⟨[(9:ℚ)/10], rfl, by decide⟩)⟩

/-! ### Claim C5 -/

/-- C5: `InputValidator.validate_query` rejects the empty string, every
string of 1001 characters, the representative `<script>` payload and
every string containing `DROP TABLE`; it accepts a plain 50-character
natural-language sentence. -/
theorem C5_validate_query_cases :
    (validate_query []).1 = false ∧
    (∀ q : List Char, q.length = 1001 → (validate_query q).1 = false) ∧
    (validate_query "<script>alert(1)</script> is dangerous".toList).1 = false ∧
    (∀ q : List Char, "DROP TABLE".toList <:+: q → (validate_query q).1 = false) ∧
    ("what do people think about the new python releases".toList.length = 50 ∧
      (validate_query "what do people think about the new python releases".toList).1 = true) := by
  refine ⟨by decide, ?_, by decide, ?_, by decide, by decide⟩
  · intro q hq
    unfold validate_query
    rw [hq]
    norm_num
  · intro q hinf
    obtain ⟨a, b, hab⟩ := hinf
    have hmap : q.map Char.toLower =
        a.map Char.toLower ++ ("drop".toList ++ ' ' :: ("table".toList ++ b.map Char.toLower)) := by
      rw [← hab]
      simp [List.map_append]
    have hsuf : ("drop".toList ++ ' ' :: ("table".toList ++ b.map Char.toLower)) <:+
        q.map Char.toLower := ⟨a.map Char.toLower, hmap.symm⟩
    have hsql : containsSqlInjection (q.map Char.toLower) = true := by
      have h := searchSuffixes_of_suffix hsuf
        (matchKwPairHere_append "drop".toList "table".toList (b.map Char.toLower))
      unfold containsSqlInjection
      rw [h]
      simp
    unfold validate_query
    split
    · rfl
    · split
      · rfl
      · split
        · rfl
        · dsimp only
          split
          · rfl
          · simp [hsql]

/-- Witness for the two quantified parts of C5: a concrete
1001-character string and a concrete query containing `DROP TABLE`. -/
theorem C5_witness :
    ((List.replicate 1001 'a').length = 1001 ∧
      (validate_query (List.replicate 1001 'a')).1 = false) ∧
    ("DROP TABLE".toList <:+: "tell me why DROP TABLE users trended".toList ∧
      (validate_query "tell me why DROP TABLE users trended".toList).1 = false) :=
  ⟨⟨List.length_replicate 1001 'a',
    C5_validate_query_cases.2.1 _ (List.length_replicate 1001 'a')⟩,
   ⟨by decide, C5_validate_query_cases.2.2.2.1 _ (by decide)⟩⟩

/-! ### Claim C6

The claim says only a *leading* `r/` or `/` is stripped from a
subreddit name, the rest unchanged; the code's
`replace("r/", "").replace("/", "")` removes every `r/` substring and
every remaining slash.  On `a/b` the two disagree. -/

theorem removeRSlash_of_no_slash {l : List Char} (h : '/' ∉ l) : removeRSlash l = l := by
  induction l with
  | nil => rfl
  | cons c rest ih =>
    have hrest : '/' ∉ rest := fun hm => h (List.mem_cons_of_mem _ hm)
    cases rest with
    | nil => cases hc : c <;> simp [removeRSlash]
    | cons d rest' =>
      have hd : d ≠ '/' := fun hd => h (by simp [hd])
      unfold removeRSlash
      split
      · simp_all
      · next heq =>
        injection heq with h1 h2
        subst h1
        subst h2
        rw [ih hrest]
      · next heq => exact absurd heq (by simp)

theorem removeSlash_of_no_slash {l : List Char} (h : '/' ∉ l) : removeSlash l = l :=
  List.filter_eq_self.mpr fun c hc => by
    have hne : c ≠ '/' := fun he => h (he ▸ hc)
    simp [hne]

/-- Counterexample to C6 as stated: for the supplied name `a/b` the
stored filter is `ab` (all slashes removed), not the
leading-marker-stripped name `a/b`. -/
theorem C6_counterexample :
    build_filters_subreddit (some ['a', '/', 'b']) = some ['a', 'b'] ∧
    spec_strip_leading_subreddit ['a', '/', 'b'] = ['a', '/', 'b'] ∧
    build_filters_subreddit (some ['a', '/', 'b']) ≠
      some (spec_strip_leading_subreddit ['a', '/', 'b']) := by
  decide

/-- C6 amended: for every supplied subreddit name in which `/` occurs
at most as part of a single leading `r/` or a single leading `/`, the
filter stores exactly the name with that leading marker stripped, and
no filter is set when the name is empty after stripping (names with
further slashes instead get every `r/` substring and every remaining
slash removed). -/
theorem C6_subreddit_filter :
    (∀ t : List Char, '/' ∉ t →
      build_filters_subreddit (some ('r' :: '/' :: t)) =
        if t.isEmpty then none else some t) ∧
    (∀ t : List Char, '/' ∉ t →
      build_filters_subreddit (some ('/' :: t)) =
        if t.isEmpty then none else some t) ∧
    (∀ s : List Char, '/' ∉ s →
      build_filters_subreddit (some s) =
        if s.isEmpty then none else some s) := by
  have hclean : ∀ t : List Char, '/' ∉ t → clean_subreddit t = t := fun t ht => by
    unfold clean_subreddit
    rw [removeRSlash_of_no_slash ht, removeSlash_of_no_slash ht]
  refine ⟨fun t ht => ?_, fun t ht => ?_, fun s hs => ?_⟩
  · have h1 : clean_subreddit ('r' :: '/' :: t) = t := by
      unfold clean_subreddit
      rw [show removeRSlash ('r' :: '/' :: t) = removeRSlash t from rfl,
        removeRSlash_of_no_slash ht, removeSlash_of_no_slash ht]
    simp only [build_filters_subreddit, h1]
    rfl
  · have h1 : clean_subreddit ('/' :: t) = t := by
      unfold clean_subreddit
      rw [show removeRSlash ('/' :: t) = '/' :: removeRSlash t from rfl,
        removeRSlash_of_no_slash ht]
      unfold removeSlash
      rw [List.filter_cons_of_neg (by simp)]
      exact removeSlash_of_no_slash ht
    simp only [build_filters_subreddit, h1]
    rfl
  · cases s with
    | nil => rfl
    | cons c t =>
      simp only [build_filters_subreddit, hclean _ hs]
      rfl

/-- Witness for C6 amended at the name `r/python`. -/
theorem C6_witness :
    ('/' ∉ "python".toList) ∧
    build_filters_subreddit (some ('r' :: '/' :: "python".toList)) =
      (if "python".toList.isEmpty then none else some "python".toList) :=
  ⟨by decide, C6_subreddit_filter.1 "python".toList (by decide)⟩

/-! ### Claim C4 -/

theorem dedupGo_idem (seen : List (List Char)) (l : List Post) :
    dedupGo seen (dedupGo seen l) = dedupGo seen l := by
  induction l generalizing seen with
  | nil => rfl
  | cons p ps ih =>
    by_cases h : normalize_content p.content ∈ seen
    · simp only [dedupGo, if_pos h]
      exact ih seen
    · simp only [dedupGo, if_neg h]
      rw [ih (normalize_content p.content :: seen)]

theorem dedupGo_sublist (seen : List (List Char)) (l : List Post) :
    List.Sublist (dedupGo seen l) l := by
  induction l generalizing seen with
  | nil => simp [dedupGo]
  | cons p ps ih =>
    by_cases h : normalize_content p.content ∈ seen
    · simp only [dedupGo, if_pos h]
      exact (ih seen).cons p
    · simp only [dedupGo, if_neg h]
      exact (ih _).cons₂ p

theorem dedupGo_keys (seen : List (List Char)) (l : List Post) :
    ((dedupGo seen l).map (fun p => normalize_content p.content)).Nodup ∧
    ∀ k ∈ (dedupGo seen l).map (fun p => normalize_content p.content), k ∉ seen := by
  induction l generalizing seen with
  | nil => simp [dedupGo]
  | cons p ps ih =>
    by_cases h : normalize_content p.content ∈ seen
    · simpa only [dedupGo, if_pos h] using ih seen
    · obtain ⟨hnd, hout⟩ := ih (normalize_content p.content :: seen)
      simp only [dedupGo, if_neg h, List.map_cons, List.nodup_cons]
      refine ⟨⟨?_, hnd⟩, ?_⟩
      · intro hmem
        exact hout _ hmem (by simp)
      · intro k hk2
        rcases List.mem_cons.mp hk2 with h1 | h1
        · subst h1
          exact h
        · exact fun hks => hout k h1 (List.mem_cons_of_mem _ hks)

theorem dedupGo_find? (seen : List (List Char)) (l : List Post) (k : List Char)
    (hk : k ∉ seen) :
    (dedupGo seen l).find? (fun p => decide (normalize_content p.content = k)) =
      l.find? (fun p => decide (normalize_content p.content = k)) := by
  induction l generalizing seen with
  | nil => rfl
  | cons p ps ih =>
    by_cases h : normalize_content p.content ∈ seen
    · have hne : normalize_content p.content ≠ k := fun he => hk (he ▸ h)
      simp only [dedupGo, if_pos h]
      rw [ih seen hk, List.find?_cons_of_neg _ (by simpa using hne)]
    · by_cases hek : normalize_content p.content = k
      · simp only [dedupGo, if_neg h]
        rw [List.find?_cons_of_pos _ (by simpa using hek),
          List.find?_cons_of_pos _ (by simpa using hek)]
      · simp only [dedupGo, if_neg h]
        rw [List.find?_cons_of_neg _ (by simpa using hek),
          List.find?_cons_of_neg _ (by simpa using hek),
          ih _ (by simpa using ⟨fun h' => hek h'.symm, hk⟩)]

/-- C4: `PostProcessor._remove_duplicates` is idempotent, returns an
order-preserving subsequence of its input, its output carries pairwise
distinct normalized-content fingerprints, and for every fingerprint
the first input post carrying it is the one kept. -/
theorem C4_remove_duplicates (posts : List Post) :
    remove_duplicates (remove_duplicates posts) = remove_duplicates posts ∧
    List.Sublist (remove_duplicates posts) posts ∧
    ((remove_duplicates posts).map (fun p => normalize_content p.content)).Nodup ∧
    ∀ k : List Char,
      (remove_duplicates posts).find? (fun p => decide (normalize_content p.content = k)) =
        posts.find? (fun p => decide (normalize_content p.content = k)) :=
  ⟨dedupGo_idem [] posts, dedupGo_sublist [] posts, (dedupGo_keys [] posts).1,
   fun k => dedupGo_find? [] posts k (by simp)⟩

/-! ### Claim C1 -/

/-- C1: whenever a pipeline stage raises an unexpected exception,
`PostProcessor.process_posts` returns the first `max_posts` posts of
the original input unchanged; and in every case (normal or degraded)
the result has length at most `max_posts`. -/
theorem C1_process_posts_degrades (f : StageFaults)
    (summarize : List Char → List Char → Option (List Char))
    (sentiment : List Char → Option (List Char))
    (posts : List Post) (query : List Char) (max_posts : ℕ) (now : ℚ) :
    (stage_raised f posts = true →
      process_posts f summarize sentiment posts query max_posts now = posts.take max_posts) ∧
    (process_posts f summarize sentiment posts query max_posts now).length ≤ max_posts := by
  constructor
  · intro h
    simp only [stage_raised, Bool.and_eq_true, Bool.or_eq_true, Bool.not_eq_true'] at h
    obtain ⟨hne, hflags⟩ := h
    unfold process_posts
    rw [if_neg (by simp [hne])]
    by_cases hd : f.dedup
    · rw [if_pos hd]
    rw [if_neg hd]
    by_cases hf : f.filter
    · rw [if_pos hf]
    rw [if_neg hf]
    rcases hflags with (h1 | h1) | ⟨h1, h2⟩
    · exact absurd h1 hd
    · exact absurd h1 hf
    · rw [if_neg (by simp [h1])]
      rcases h2 with h2 | h2
      · rw [if_pos h2]
      · by_cases he : f.enhance
        · rw [if_pos he]
        · rw [if_neg he, if_pos h2]
  · unfold process_posts
    dsimp only
    split
    · simp
    · split
      · exact List.length_take_le _ _
      · split
        · exact List.length_take_le _ _
        · split
          · simp
          · split
            · exact List.length_take_le _ _
            · split
              · exact List.length_take_le _ _
              · exact List.length_take_le _ _

/-- Witness for C1: a dedup-stage fault on a one-post input degrades to
the truncated original input. -/
theorem C1_witness :
    stage_raised ⟨true, false, false, false⟩
      [({ id := [], source := [], content := [], author := [], created_at := 0,
          url := [], engagement_score := 0 } : Post)] = true ∧
    process_posts ⟨true, false, false, false⟩ (fun _ _ => none) (fun _ => none)
      [({ id := [], source := [], content := [], author := [], created_at := 0,
          url := [], engagement_score := 0 } : Post)] [] 2 0 =
      [({ id := [], source := [], content := [], author := [], created_at := 0,
          url := [], engagement_score := 0 } : Post)].take 2 :=
  ⟨by decide,
   (C1_process_posts_degrades ⟨true, false, false, false⟩ (fun _ _ => none) (fun _ => none)
     [({ id := [], source := [], content := [], author := [], created_at := 0,
         url := [], engagement_score := 0 } : Post)] [] 2 0).1 (by decide)⟩

/-! ### Claim C2 -/

theorem foldl_max_init (l : List Post) (a : ℚ) :
    a ≤ l.foldl (fun m q => max m q.engagement_score) a := by
  induction l generalizing a with
  | nil => exact le_refl a
  | cons q qs ih =>
    exact le_trans (le_max_left a q.engagement_score) (ih (max a q.engagement_score))

theorem foldl_max_mem {l : List Post} {p : Post} (hp : p ∈ l) (a : ℚ) :
    p.engagement_score ≤ l.foldl (fun m q => max m q.engagement_score) a := by
  induction l generalizing a with
  | nil => cases hp
  | cons q qs ih =>
    rcases List.mem_cons.mp hp with h1 | h1
    · subst h1
      exact le_trans (le_max_right a p.engagement_score)
        (foldl_max_init qs (max a p.engagement_score))
    · exact ih h1 _

theorem le_max_engagement {posts : List Post} {p : Post} (hp : p ∈ posts) :
    p.engagement_score ≤ max_engagement posts := by
  cases posts with
  | nil => cases hp
  | cons q qs =>
    rcases List.mem_cons.mp hp with h1 | h1
    · subst h1
      exact foldl_max_init qs p.engagement_score
    · exact foldl_max_mem h1 _

theorem calculate_score_bounds {posts : List Post} {p : Post} (now : ℚ)
    (hp : p ∈ posts) (heng : ∀ q ∈ posts, 0 ≤ q.engagement_score)
    (hage : p.created_at ≤ now) :
    0 ≤ calculate_score posts now p ∧ calculate_score posts now p ≤ 19/20 := by
  unfold calculate_score
  set maxE := max_engagement posts with hmaxE
  have hef : 0 ≤ (if maxE > 0 then p.engagement_score / maxE else 0) ∧
      (if maxE > 0 then p.engagement_score / maxE else 0) ≤ 1 := by
    split
    · next hpos =>
      constructor
      · exact div_nonneg (heng p hp) (le_of_lt hpos)
      · exact (div_le_one hpos).mpr (le_max_engagement hp)
    · exact ⟨le_refl 0, by norm_num⟩
  have hagepos : 0 ≤ (now - p.created_at) / 3600 / (24 * 7) := by
    have h1 : (0 : ℚ) ≤ now - p.created_at := by linarith
    positivity
  have hrf : 0 ≤ max 0 (1 - (now - p.created_at) / 3600 / (24 * 7)) ∧
      max 0 (1 - (now - p.created_at) / 3600 / (24 * 7)) ≤ 1 := by
    constructor
    · exact le_max_left 0 _
    · exact max_le (by norm_num) (by linarith)
  have hlf : 0 ≤ min 1 ((p.content.length : ℚ) / 500) ∧
      min 1 ((p.content.length : ℚ) / 500) ≤ 1 := by
    constructor
    · exact le_min (by norm_num) (by positivity)
    · exact min_le_left 1 _
  have hsb : 0 ≤ (if p.sentiment = some "positive".toList then (1/10 : ℚ)
        else if p.sentiment = some "neutral".toList then (5/100 : ℚ) else 0) ∧
      (if p.sentiment = some "positive".toList then (1/10 : ℚ)
        else if p.sentiment = some "neutral".toList then (5/100 : ℚ) else 0) ≤ 1/10 := by
    split
    · norm_num
    · split <;> norm_num
  have hrb : 0 ≤ (if p.source = "Reddit".toList then (5/100 : ℚ) else 0) ∧
      (if p.source = "Reddit".toList then (5/100 : ℚ) else 0) ≤ 5/100 := by
    split <;> norm_num
  constructor
  · have h1 := mul_nonneg hef.1 (by norm_num : (0:ℚ) ≤ 4/10)
    have h2 := mul_nonneg hrf.1 (by norm_num : (0:ℚ) ≤ 2/10)
    have h3 := mul_nonneg hlf.1 (by norm_num : (0:ℚ) ≤ 2/10)
    linarith [hsb.1, hrb.1]
  · have h1 : (if maxE > 0 then p.engagement_score / maxE else 0) * (4/10) ≤ 4/10 := by
      nlinarith [hef.1, hef.2]
    have h2 : max 0 (1 - (now - p.created_at) / 3600 / (24 * 7)) * (2/10) ≤ 2/10 := by
      nlinarith [hrf.1, hrf.2]
    have h3 : min 1 ((p.content.length : ℚ) / 500) * (2/10) ≤ 2/10 := by
      nlinarith [hlf.1, hlf.2]
    linarith [hsb.2, hrb.2]

theorem insertDesc_perm (p : Post) (l : List Post) :
    List.Perm (insertDesc p l) (p :: l) := by
  induction l with
  | nil => rfl
  | cons q qs ih =>
    unfold insertDesc
    split
    · exact (ih.cons q).trans (List.Perm.swap p q qs)
    · rfl

theorem sortByScoreDesc_perm (l : List Post) : List.Perm (sortByScoreDesc l) l := by
  induction l with
  | nil => rfl
  | cons p ps ih => exact (insertDesc_perm p (sortByScoreDesc ps)).trans (ih.cons p)

theorem insertDesc_pairwise (p : Post) (l : List Post)
    (h : l.Pairwise (fun a b => rel_key b ≤ rel_key a)) :
    (insertDesc p l).Pairwise (fun a b => rel_key b ≤ rel_key a) := by
  induction l with
  | nil => simp [insertDesc]
  | cons q qs ih =>
    obtain ⟨hq, hqs⟩ := List.pairwise_cons.mp h
    unfold insertDesc
    split
    · next hgt =>
      refine List.pairwise_cons.mpr ⟨?_, ih hqs⟩
      intro x hx
      rcases List.mem_cons.mp ((insertDesc_perm p qs).mem_iff.mp hx) with h1 | h1
      · subst h1
        exact le_of_lt hgt
      · exact hq x h1
    · next hng =>
      refine List.pairwise_cons.mpr ⟨?_, h⟩
      intro x hx
      rcases List.mem_cons.mp hx with h1 | h1
      · subst h1
        exact not_lt.mp hng
      · exact le_trans (hq x h1) (not_lt.mp hng)

theorem sortByScoreDesc_pairwise (l : List Post) :
    (sortByScoreDesc l).Pairwise (fun a b => rel_key b ≤ rel_key a) := by
  induction l with
  | nil => simp [sortByScoreDesc]
  | cons p ps ih => exact insertDesc_pairwise p (sortByScoreDesc ps) ih

theorem insertDesc_filter (p : Post) (l : List Post) (s : ℚ) :
    (insertDesc p l).filter (fun q => decide (rel_key q = s)) =
      if rel_key p = s then p :: l.filter (fun q => decide (rel_key q = s))
      else l.filter (fun q => decide (rel_key q = s)) := by
  induction l with
  | nil =>
    unfold insertDesc
    split <;> simp_all [List.filter]
  | cons q qs ih =>
    unfold insertDesc
    split
    · next hgt =>
      by_cases hqe : rel_key q = s
      · have hpe : rel_key p ≠ s := fun hpe => absurd hgt (by rw [hpe, hqe]; exact lt_irrefl s)
        rw [List.filter_cons_of_pos (by simpa using hqe), ih, if_neg hpe,
          List.filter_cons_of_pos (by simpa using hqe), if_neg hpe]
      · rw [List.filter_cons_of_neg (by simpa using hqe), ih,
          List.filter_cons_of_neg (by simpa using hqe)]
    · next hng =>
      by_cases hpe : rel_key p = s
      · rw [List.filter_cons_of_pos (by simpa using hpe), if_pos hpe]
      · rw [List.filter_cons_of_neg (by simpa using hpe), if_neg hpe]

theorem sortByScoreDesc_filter (l : List Post) (s : ℚ) :
    (sortByScoreDesc l).filter (fun q => decide (rel_key q = s)) =
      l.filter (fun q => decide (rel_key q = s)) := by
  induction l with
  | nil => rfl
  | cons p ps ih =>
    unfold sortByScoreDesc
    rw [insertDesc_filter]
    by_cases hpe : rel_key p = s
    · rw [if_pos hpe, ih, List.filter_cons_of_pos (by simpa using hpe)]
    · rw [if_neg hpe, ih, List.filter_cons_of_neg (by simpa using hpe)]

/-- C2: on a non-empty post list with non-negative engagement scores
and no future timestamps, `PostProcessor._rank_posts` assigns every
post a `relevance_score` in `[0, 1]` — at most the saturated weight sum
`0.4 + 0.2 + 0.2 + 0.1 + 0.05 = 0.95` — and returns the scored posts
sorted by that score in descending order, stably: posts of equal score
keep their prior relative order. -/
theorem C2_rank_posts_bounds_sorted_stable (posts : List Post) (now : ℚ)
    (hne : posts ≠ [])
    (heng : ∀ p ∈ posts, 0 ≤ p.engagement_score)
    (hage : ∀ p ∈ posts, p.created_at ≤ now) :
    (∀ p ∈ rank_posts now posts,
      ∃ s : ℚ, p.relevance_score = some s ∧ 0 ≤ s ∧ s ≤ 19/20 ∧ s ≤ 1) ∧
    (rank_posts now posts).Pairwise (fun a b => rel_key b ≤ rel_key a) ∧
    List.Perm (rank_posts now posts) (score_posts now posts) ∧
    (∀ s : ℚ, (rank_posts now posts).filter (fun p => decide (rel_key p = s)) =
      (score_posts now posts).filter (fun p => decide (rel_key p = s))) := by
  refine ⟨?_, sortByScoreDesc_pairwise _, sortByScoreDesc_perm _,
    fun s => sortByScoreDesc_filter _ s⟩
  intro p hp
  have hp' : p ∈ score_posts now posts :=
    (sortByScoreDesc_perm (score_posts now posts)).mem_iff.mp hp
  obtain ⟨q, hq, hqp⟩ := List.mem_map.mp hp'
  obtain ⟨h0, h95⟩ := calculate_score_bounds now hq heng (hage q hq)
  refine ⟨calculate_score posts now q, ?_, h0, h95, by linarith⟩
  rw [← hqp]

/-- Witness for C2: two posts (engagement 100 and 10, sixty minutes
and a week old) ranked at time 0. -/
theorem C2_witness :
    (([({ id := ['1'], source := "Reddit".toList, content := List.replicate 30 'a',
          author := ['u'], created_at := -3600, url := [], engagement_score := 100 } : Post),
      ({ id := ['2'], source := "Twitter".toList, content := List.replicate 25 'b',
          author := ['v'], created_at := -604800, url := [], engagement_score := 10 } : Post)] :
        List Post) ≠ []) ∧
    (∀ p ∈ rank_posts 0
      [({ id := ['1'], source := "Reddit".toList, content := List.replicate 30 'a',
          author := ['u'], created_at := -3600, url := [], engagement_score := 100 } : Post),
      ({ id := ['2'], source := "Twitter".toList, content := List.replicate 25 'b',
          author := ['v'], created_at := -604800, url := [], engagement_score := 10 } : Post)],
      ∃ s : ℚ, p.relevance_score = some s ∧ 0 ≤ s ∧ s ≤ 19/20 ∧ s ≤ 1) :=
  ⟨by decide,
   (C2_rank_posts_bounds_sorted_stable
     [({ id := ['1'], source := "Reddit".toList, content := List.replicate 30 'a',
          author := ['u'], created_at := -3600, url := [], engagement_score := 100 } : Post),
      ({ id := ['2'], source := "Twitter".toList, content := List.replicate 25 'b',
          author := ['v'], created_at := -604800, url := [], engagement_score := 10 } : Post)] 0
     (by decide)
     (by intro p hp; fin_cases hp <;> norm_num)
     (by intro p hp; fin_cases hp <;> norm_num)).1⟩

/-! ### Claim C9

The claim's allowed differences include inserting punctuation between
words, but `_normalize_query` removes `?!.` only *after* collapsing
whitespace, so `a . b` normalizes to `a  b` (two interior spaces) while
`a b` normalizes to itself: the cached value is not found although the
two queries differ only in one `.` and whitespace. -/

/-- Counterexample to C9 as stated: after `set("a b", 42)` the lookup
`get("a . b")` — a query differing only in a `.` occurrence and extra
whitespace — misses (returns `none`), because the two normalizations
differ. -/
theorem C9_counterexample :
    normalize_query "a . b".toList ≠ normalize_query "a b".toList ∧
    (QueryCache.get_cached_result
      (QueryCache.cache_result (⟨500, 300, []⟩ : LRUCache ℕ) 0 "a b".toList 42)
      1 "a . b".toList).1 = none := by
  decide

/-- C9 amended: after `cache_result(q, X)` on a fresh query cache, a
`get_cached_result(q')` within the TTL returns `X` for every `q'`
whose normalization (lowercase, strip, collapse whitespace, then drop
every `?`, `!`, `.`) equals that of `q` — in particular for
differences in letter case, leading/trailing whitespace, collapsing of
existing whitespace runs, and punctuation removal that leaves no new
interior whitespace gap, such as `get(" Query? ")` after
`set("query", X)`. -/
theorem C9_cache_normalized_hit {α : Type} (ms : ℕ) (ttl t t' : ℚ) (q q' : List Char) (v : α)
    (hms : 1 ≤ ms) (hnorm : normalize_query q' = normalize_query q)
    (httl : ¬ t' - t > ttl) :
    (QueryCache.get_cached_result
      (QueryCache.cache_result (⟨ms, ttl, []⟩ : LRUCache α) t q v) t' q').1 = some v := by
  have hkey : query_key q' = query_key q := by
    unfold query_key
    rw [hnorm]
  unfold QueryCache.get_cached_result QueryCache.cache_result
  rw [hkey]
  unfold LRUCache.set LRUCache.get
  have hone : evictOldest ms (eraseEntry ([] : List (List Char × α × ℚ)) (query_key q) ++
      [(query_key q, v, t)]) = [(query_key q, v, t)] := by
    unfold eraseEntry evictOldest
    simp only [List.filter_nil, List.nil_append, List.length_cons, List.length_nil]
    rw [show 0 + 1 - ms = 0 from by omega]
    rfl
  rw [hone]
  have hfind : lookupEntry [(query_key q, v, t)] (query_key q) = some (v, t) := by
    unfold lookupEntry
    rw [List.find?_cons_of_pos _ (by simp)]
    rfl
  rw [hfind]
  simp only [httl, if_false]

/-- Witness for C9 amended: `set("query", 42)` then `get(" Query? ")`
returns `42`. -/
theorem C9_witness :
    (1 ≤ 500) ∧
    normalize_query " Query? ".toList = normalize_query "query".toList ∧
    ¬ (0 : ℚ) - 0 > 300 ∧
    (QueryCache.get_cached_result
      (QueryCache.cache_result (⟨500, 300, []⟩ : LRUCache ℕ) 0 "query".toList 42)
      0 " Query? ".toList).1 = some 42 :=
  ⟨by decide, by decide, by norm_num,
   C9_cache_normalized_hit 500 300 0 0 "query".toList " Query? ".toList 42
     (by decide) (by decide) (by norm_num)⟩

/-! ### Claim C10 -/

/-- C10: `LRUCache.set` on any state (capacity at least one) leaves the
key bound to the new value with its timestamp reset to the set time, at
the most-recently-used end; the result is within capacity, the entry's
TTL expiry is measured from this latest `set`, and trimming only
removes entries from the least-recently-used front (the result is a
suffix of the untrimmed list). -/
theorem C10_lru_set {α : Type} (c : LRUCache α) (k : List Char) (v : α) (now : ℚ)
    (hms : 1 ≤ c.max_size) :
    lookupEntry (c.set now k v).entries k = some (v, now) ∧
    (c.set now k v).entries.getLast? = some (k, v, now) ∧
    (c.set now k v).entries.length ≤ c.max_size ∧
    (∀ now' : ℚ, (c.set now k v).is_expired now' k =
      decide (now' - now > c.ttl_seconds)) ∧
    (c.set now k v).entries <:+ eraseEntry c.entries k ++ [(k, v, now)] := by
  have hdropn : (eraseEntry c.entries k ++ [(k, v, now)]).length - c.max_size ≤
      (eraseEntry c.entries k).length := by
    simp only [List.length_append, List.length_cons, List.length_nil]
    omega
  have hdrop : (c.set now k v).entries =
      (eraseEntry c.entries k).drop
        ((eraseEntry c.entries k ++ [(k, v, now)]).length - c.max_size) ++ [(k, v, now)] := by
    unfold LRUCache.set evictOldest
    exact List.drop_append_of_le_length hdropn
  have hlook : lookupEntry (c.set now k v).entries k = some (v, now) := by
    rw [hdrop]
    unfold lookupEntry
    have hnone : ∀ e ∈ (eraseEntry c.entries k).drop
        ((eraseEntry c.entries k ++ [(k, v, now)]).length - c.max_size),
        ¬ (fun e => decide (e.1 = k)) e = true := by
      intro e he
      have : e ∈ eraseEntry c.entries k := List.mem_of_mem_drop he
      have := List.of_mem_filter this
      simpa using this
    rw [List.find?_append, List.find?_eq_none.mpr hnone]
    simp [List.find?]
  refine ⟨hlook, ?_, ?_, ?_, ?_⟩
  · rw [hdrop]
    exact List.getLast?_concat _
  · unfold LRUCache.set evictOldest
    simp only [List.length_drop, List.length_append, List.length_cons, List.length_nil]
    omega
  · intro now'
    unfold LRUCache.is_expired
    rw [hlook]
    rfl
  · obtain ⟨ts, hts⟩ := List.drop_suffix
      ((eraseEntry c.entries k ++ [(k, v, now)]).length - c.max_size) (eraseEntry c.entries k)
    exact ⟨ts, by rw [hdrop, ← List.append_assoc, hts]⟩

/-! ### Claim C7 -/

theorem failCalls_closed (ts : List ℚ) (cb : CircuitBreaker)
    (hst : cb.state = .closed)
    (hlen : cb.failure_count + ts.length = cb.failure_threshold) (hne : ts ≠ []) :
    (cb.failCalls ts).state = .opened ∧
    (cb.failCalls ts).failure_count = cb.failure_threshold := by
  induction ts generalizing cb with
  | nil => exact absurd rfl hne
  | cons t rest ih =>
    have hcall : (cb.call t false).2 = cb.on_failure t := by
      unfold CircuitBreaker.call
      rw [if_neg (by simp [hst])]
      simp only [hst]
      rfl
    unfold CircuitBreaker.failCalls
    rw [hcall]
    cases rest with
    | nil =>
      have hth : cb.failure_count + 1 = cb.failure_threshold := by
        simpa using hlen
      unfold CircuitBreaker.failCalls CircuitBreaker.on_failure
      rw [if_pos (by simp [hth])]
      simp [hth]
    | cons t2 rest2 =>
      have hlt : cb.failure_count + 1 < cb.failure_threshold := by
        simp only [List.length_cons] at hlen
        omega
      have hof : cb.on_failure t =
          { cb with failure_count := cb.failure_count + 1, last_failure_time := some t } := by
        unfold CircuitBreaker.on_failure
        rw [if_neg (by simp; omega)]
      rw [hof]
      refine ih _ hst ?_ (by simp)
      show cb.failure_count + 1 + (t2 :: rest2).length = cb.failure_threshold
      simp only [List.length_cons] at hlen ⊢
      omega

/-- C7: the circuit breaker (i) moves from CLOSED to OPEN after
`failure_threshold` consecutive failures; (ii) while OPEN, a call
before the recovery timeout has elapsed since the last failure is
rejected without executing the wrapped function and changes nothing;
(iii) once the timeout has elapsed the next call executes (in
HALF_OPEN), and success returns the breaker to CLOSED with the failure
count reset; (iv) a failure of that HALF_OPEN call returns it to
OPEN. -/
theorem C7_circuit_breaker :
    (∀ (T : ℕ) (τ : ℚ) (ts : List ℚ), ts.length = T → ts ≠ [] →
      ((⟨T, τ, 0, none, .closed⟩ : CircuitBreaker).failCalls ts).state = .opened) ∧
    (∀ (cb : CircuitBreaker) (t now : ℚ) (ok : Bool),
      cb.state = .opened → cb.last_failure_time = some t →
      now - t < cb.recovery_timeout →
      cb.call now ok = (.rejected, cb)) ∧
    (∀ (cb : CircuitBreaker) (t now : ℚ),
      cb.state = .opened → cb.last_failure_time = some t →
      now - t ≥ cb.recovery_timeout →
      (cb.call now true).1 = .succeeded ∧
      (cb.call now true).2.state = .closed ∧
      (cb.call now true).2.failure_count = 0) ∧
    (∀ (cb : CircuitBreaker) (t now : ℚ),
      cb.state = .opened → cb.last_failure_time = some t →
      now - t ≥ cb.recovery_timeout →
      cb.failure_threshold ≤ cb.failure_count →
      (cb.call now false).1 = .failed ∧
      (cb.call now false).2.state = .opened) := by
  refine ⟨?_, ?_, ?_, ?_⟩
  · intro T τ ts hlen hne
    exact (failCalls_closed ts ⟨T, τ, 0, none, .closed⟩ rfl (by simpa using hlen) hne).1
  · intro cb t now ok hst hlf hlt
    unfold CircuitBreaker.call
    rw [if_pos]
    refine ⟨hst, ?_⟩
    unfold CircuitBreaker.should_attempt_reset
    rw [hlf]
    simpa using hlt
  · intro cb t now hst hlf hge
    have hreset : cb.should_attempt_reset now = true := by
      unfold CircuitBreaker.should_attempt_reset
      rw [hlf]
      simpa using hge
    unfold CircuitBreaker.call
    rw [if_neg (by simp [hreset])]
    simp [CircuitBreaker.on_success]
  · intro cb t now hst hlf hge hcount
    have hreset : cb.should_attempt_reset now = true := by
      unfold CircuitBreaker.should_attempt_reset
      rw [hlf]
      simpa using hge
    unfold CircuitBreaker.call
    rw [if_neg (by simp [hreset])]
    simp only [if_pos hst, Bool.false_eq_true, if_false]
    unfold CircuitBreaker.on_failure
    rw [if_pos (by simp; omega)]
    simp

/-- Witness for C7 with the default configuration
(`failure_threshold = 5`, `recovery_timeout = 60`): five consecutive
failures open the breaker; at time 30 a call is rejected; at time 65 a
successful call closes it; a failing call at 65 reopens it. -/
theorem C7_witness :
    (([1, 2, 3, 4, 5] : List ℚ).length = 5 ∧ ([1, 2, 3, 4, 5] : List ℚ) ≠ [] ∧
      ((⟨5, 60, 0, none, .closed⟩ : CircuitBreaker).failCalls [1, 2, 3, 4, 5]).state = .opened) ∧
    ((⟨5, 60, 5, some 5, .opened⟩ : CircuitBreaker).call 30 true =
      (.rejected, (⟨5, 60, 5, some 5, .opened⟩ : CircuitBreaker))) ∧
    (((⟨5, 60, 5, some 5, .opened⟩ : CircuitBreaker).call 65 true).2.state = .closed) ∧
    (((⟨5, 60, 5, some 5, .opened⟩ : CircuitBreaker).call 65 false).2.state = .opened) :=
  ⟨⟨by decide, by decide,
    C7_circuit_breaker.1 5 60 [1, 2, 3, 4, 5] (by decide) (by decide)⟩,
   C7_circuit_breaker.2.1 (⟨5, 60, 5, some 5, .opened⟩ : CircuitBreaker) 5 30 true
     rfl rfl (by norm_num),
   (C7_circuit_breaker.2.2.1 (⟨5, 60, 5, some 5, .opened⟩ : CircuitBreaker) 5 65
     rfl rfl (by norm_num)).2.1,
   (C7_circuit_breaker.2.2.2 (⟨5, 60, 5, some 5, .opened⟩ : CircuitBreaker) 5 65
     rfl rfl (by norm_num) (by norm_num)).2⟩

/-! ### Claim C8 -/

theorem dropWhile_eq_self_of_all {p : α → Bool} {l : List α}
    (h : ∀ x ∈ l, p x = false) : l.dropWhile p = l := by
  cases l with
  | nil => rfl
  | cons a t => simp [List.dropWhile_cons, h a (by simp)]

theorem runCalls_within_window (ts : List ℚ) (M : ℕ) (W t0 : ℚ) (cur : List ℚ)
    (hts : ∀ t ∈ ts, t0 ≤ t ∧ t ≤ t0 + W)
    (hcur : ∀ t ∈ cur, t0 ≤ t ∧ t ≤ t0 + W) :
    RateLimiter.runCalls ⟨M, W, cur⟩ ts =
      (List.range ts.length).map (fun i => decide (cur.length + i < M)) := by
  induction ts generalizing cur with
  | nil => rfl
  | cons t rest ih =>
    have htw : t0 ≤ t ∧ t ≤ t0 + W := hts t (by simp)
    have hprune : cur.dropWhile (fun x => decide (x < t - W)) = cur := by
      refine dropWhile_eq_self_of_all fun x hx => ?_
      have hx' := hcur x hx
      simp only [decide_eq_false_iff_not, not_lt]
      linarith [hx'.1, htw.2]
    have hrest : ∀ s ∈ rest, t0 ≤ s ∧ s ≤ t0 + W := fun s hs => hts s (by simp [hs])
    unfold RateLimiter.runCalls RateLimiter.is_allowed
    simp only [hprune, List.length_cons]
    rw [List.range_succ_eq_map, List.map_cons, List.map_map]
    by_cases hlt : cur.length < M
    · rw [if_pos hlt]
      refine congrArg₂ List.cons (by simp [hlt]) ?_
      have hcur' : ∀ s ∈ cur ++ [t], t0 ≤ s ∧ s ≤ t0 + W := by
        intro s hs
        rcases List.mem_append.mp hs with h1 | h1
        · exact hcur s h1
        · simpa using (List.mem_singleton.mp h1) ▸ htw
      rw [show ({ max_requests := M, window_seconds := W, requests := cur ++ [t] } :
          RateLimiter).runCalls rest =
          (List.range rest.length).map (fun i => decide ((cur ++ [t]).length + i < M)) from
        ih (cur ++ [t]) hrest hcur']
      refine List.map_congr_left fun i _ => ?_
      simp only [Function.comp_apply, decide_eq_decide, List.length_append,
        List.length_cons, List.length_nil]
      omega
    · rw [if_neg hlt]
      refine congrArg₂ List.cons (by simp [hlt]) ?_
      rw [show ({ max_requests := M, window_seconds := W, requests := cur } :
          RateLimiter).runCalls rest =
          (List.range rest.length).map (fun i => decide (cur.length + i < M)) from
        ih cur hrest hcur]
      refine List.map_congr_left fun i _ => ?_
      simp only [Function.comp_apply, decide_eq_decide]
      omega

/-- C8: for one `(client, endpoint)` key with limits
`(max_requests, window_seconds)`: (i) starting from an empty record,
in any run of calls whose times all lie within one window of the
first, exactly the first `max_requests` calls are admitted and every
later one (in particular the `max_requests + 1`-th) is denied;
(ii) whenever strictly more than the window has elapsed since the
oldest recorded timestamp (and the record is within the limit), the
next call is admitted again. -/
theorem C8_rate_limiter :
    (∀ (M : ℕ) (W t0 : ℚ) (ts : List ℚ),
      (∀ t ∈ t0 :: ts, t0 ≤ t ∧ t ≤ t0 + W) →
      RateLimiter.runCalls ⟨M, W, []⟩ (t0 :: ts) =
        (List.range (ts.length + 1)).map (fun i => decide (i < M))) ∧
    (∀ (M : ℕ) (W now t0 : ℚ) (rest : List ℚ),
      rest.length + 1 ≤ M → t0 < now - W →
      (RateLimiter.is_allowed ⟨M, W, t0 :: rest⟩ now).1 = true) := by
  constructor
  · intro M W t0 ts hts
    have := runCalls_within_window (t0 :: ts) M W t0 [] hts (by simp)
    simpa using this
  · intro M W now t0 rest hlen hold
    unfold RateLimiter.is_allowed
    have hdw : (t0 :: rest).dropWhile (fun x => decide (x < now - W)) =
        rest.dropWhile (fun x => decide (x < now - W)) := by
      simp [List.dropWhile_cons, hold]
    simp only [hdw]
    have hle : (rest.dropWhile (fun x => decide (x < now - W))).length ≤ rest.length :=
      (List.dropWhile_suffix _).sublist.length_le
    rw [if_pos (by omega)]

/-- Witness for C8: limit 2 per 60-second window; calls at times 0, 1,
2 give admitted, admitted, denied; a full record `[0, 50]` admits a
call at time 70. -/
theorem C8_witness :
    ((∀ t ∈ ([0, 1, 2] : List ℚ), (0 : ℚ) ≤ t ∧ t ≤ 0 + 60) ∧
      RateLimiter.runCalls ⟨2, 60, []⟩ [0, 1, 2] =
        (List.range 3).map (fun i => decide (i < 2))) ∧
    (([(50 : ℚ)] : List ℚ).length + 1 ≤ 2 ∧ (0 : ℚ) < 70 - 60 ∧
      (RateLimiter.is_allowed ⟨2, 60, [0, 50]⟩ 70).1 = true) :=
  ⟨⟨by intro t ht; fin_cases ht <;> norm_num,
    C8_rate_limiter.1 2 60 0 [1, 2] (by intro t ht; fin_cases ht <;> norm_num)⟩,
   ⟨by decide, by norm_num,
    C8_rate_limiter.2 2 60 70 0 [50] (by decide) (by norm_num)⟩⟩

/-- Witness for C10: overwriting the key `a` (stored at time 0) at
time 10 in a capacity-2 cache. -/
theorem C10_witness :
    (1 ≤ (⟨2, 300, [("a".toList, 1, 0)]⟩ : LRUCache ℕ).max_size) ∧
    lookupEntry ((⟨2, 300, [("a".toList, 1, 0)]⟩ : LRUCache ℕ).set 10 "a".toList 2).entries
      "a".toList = some (2, 10) ∧
    ((⟨2, 300, [("a".toList, 1, 0)]⟩ : LRUCache ℕ).set 10 "a".toList 2).entries.getLast? =
      some ("a".toList, 2, 10) :=
  ⟨by decide,
   (C10_lru_set (⟨2, 300, [("a".toList, 1, 0)]⟩ : LRUCache ℕ) "a".toList 2 10 (by decide)).1,
   (C10_lru_set (⟨2, 300, [("a".toList, 1, 0)]⟩ : LRUCache ℕ) "a".toList 2 10 (by decide)).2.1⟩

end SentientEcho
